import Mathlib

/-!
Verification of the gitp commit assistant.

JavaScript strings in the diff-parsing and commit-generation code are modelled
as `List Char`; the context-trimming code, whose behaviour depends on UTF-16
code units, is modelled over `List Nat` (one entry per code unit).
All definitions are translated from the source files
(`src/index.js` and the context-gatherer module).
-/

namespace Gitp

/-- JS `String.prototype.split('\n')`: splitting an empty string yields `[""]`,
a trailing newline yields a trailing empty piece. -/
def splitNl : List Char → List (List Char)
  | [] => [[]]
  | c :: rest =>
    if c = '\n' then [] :: splitNl rest
    else
      match splitNl rest with
      | l :: ls => (c :: l) :: ls
      | [] => [[c]]

/-- JS `Array.prototype.join('\n')`. -/
def joinNl : List (List Char) → List Char
  | [] => []
  | [l] => l
  | l :: ls => l ++ '\n' :: joinNl ls

/-- ASCII lowercase fold, used to model the `i` flag of the `cargo.lock` regex. -/
def lowerAscii (c : Char) : Char :=
  if 'A' ≤ c ∧ c ≤ 'Z' then Char.ofNat (c.toNat + 32) else c

/-- Function isLockFile from the context gatherer: each pattern in
LOCK_FILE_PATTERNS is an end-anchored literal (dots escaped), hence a
suffix test; the cargo.lock pattern carries the case-insensitive flag. -/
def isLockFile (filePath : List Char) : Bool :=
  "package-lock.json".toList.isSuffixOf filePath ||
  "yarn.lock".toList.isSuffixOf filePath ||
  "pnpm-lock.yaml".toList.isSuffixOf filePath ||
  "composer.lock".toList.isSuffixOf filePath ||
  "Gemfile.lock".toList.isSuffixOf filePath ||
  "Pipfile.lock".toList.isSuffixOf filePath ||
  "poetry.lock".toList.isSuffixOf filePath ||
  "cargo.lock".toList.isSuffixOf (filePath.map lowerAscii) ||
  "go.sum".toList.isSuffixOf filePath ||
  "mix.lock".toList.isSuffixOf filePath

/-- JS line terminators, which the regex dot does not match. -/
def isLineTerm (c : Char) : Bool :=
  c = '\n' || c = '\r' || c = Char.ofNat 0x2028 || c = Char.ofNat 0x2029

/-- JS `line.match(/b\/(.+)$/)`: the regex engine scans left to right for the
first position at which the WHOLE pattern matches.  A position matches when
it holds the two characters `b` `/` followed by a nonempty suffix free of
line terminators: `(.+)$` must cover everything up to the end of the input
(no multiline flag, so the dollar anchors only there) and the dot matches
any character except a line terminator.  When the suffix test fails the
engine moves on to the next candidate position.  Returns the capture
group. -/
def matchBSlash : List Char → Option (List Char)
  | [] => none
  | a :: rest =>
    if a = 'b' ∧ rest.head? = some '/' ∧ rest.tail ≠ [] ∧
        rest.tail.any isLineTerm = false then some rest.tail
    else matchBSlash rest

/-- Whether the two-character sequence `b` `/` occurs somewhere in the list. -/
def hasBS : List Char → Bool
  | [] => false
  | a :: rest => (a = 'b' && rest.head? = some '/') || hasBS rest

/-- JS `String.prototype.startsWith`. -/
def startsWithL (pre l : List Char) : Bool :=
  match pre, l with
  | [], _ => true
  | _ :: _, [] => false
  | p :: ps, c :: cs => p = c && startsWithL ps cs

/-- The literal line head tested by `line.startsWith('diff --git')`. -/
def diffGitHead : List Char := "diff --git".toList

/-- Body of `extractChangedFiles`: the per-line loop collecting post-change
paths from `diff --git` header lines, excluding lock files. -/
def extractFilesFromLines : List (List Char) → List (List Char)
  | [] => []
  | line :: rest =>
    if startsWithL diffGitHead line then
      match matchBSlash line with
      | some p =>
        if isLockFile p then extractFilesFromLines rest
        else p :: extractFilesFromLines rest
      | none => extractFilesFromLines rest
    else extractFilesFromLines rest

/-- Function extractChangedFiles from the context gatherer. -/
def extractChangedFiles (diff : List Char) : List (List Char) :=
  extractFilesFromLines (splitNl diff)

/-- Body of `filterLockFilesFromDiff`: the per-line loop with the
`skipCurrentFile` flag. -/
def filterLockLines : Bool → List (List Char) → List (List Char)
  | _, [] => []
  | skip, line :: rest =>
    if startsWithL diffGitHead line then
      match matchBSlash line with
      | some p =>
        if isLockFile p then filterLockLines true rest
        else line :: filterLockLines false rest
      | none => line :: filterLockLines false rest
    else
      if skip then filterLockLines skip rest
      else line :: filterLockLines skip rest

/-- Function filterLockFilesFromDiff from the context gatherer. -/
def filterLockFilesFromDiff (diff : List Char) : List Char :=
  joinNl (filterLockLines false (splitNl diff))

/-- The character class `[A-Za-z0-9]`. -/
def isAsciiAlnum (c : Char) : Bool :=
  ('A' ≤ c && c ≤ 'Z') || ('a' ≤ c && c ≤ 'z') || ('0' ≤ c && c ≤ '9')

/-- The character class `\d`. -/
def isAsciiDigit (c : Char) : Bool := '0' ≤ c && c ≤ '9'

/-- The token `([A-Za-z0-9]+-\d+)` of the branch-name regex, attempted at a
fixed position: a maximal nonempty alphanumeric run, a hyphen, then a maximal
nonempty digit run (both quantifiers greedy; shrinking either cannot help
since the following required character is not in the class). -/
def ticketToken (cs : List Char) : Option (List Char) :=
  let run1 := cs.takeWhile isAsciiAlnum
  if run1 = [] then none
  else
    match cs.drop run1.length with
    | '-' :: rest =>
      let ds := rest.takeWhile isAsciiDigit
      if ds = [] then none else some (run1 ++ '-' :: ds)
    | _ => none

/-- One alternative `kw\/` of `(?:feature|bugfix|hotfix|release)\/` attempted
at a fixed position, followed by the ticket token. -/
def tryKeywordAt (kw : List Char) (cs : List Char) : Option (List Char) :=
  if startsWithL (kw ++ ['/']) cs then ticketToken (cs.drop (kw.length + 1))
  else none

/-- The whole branch-name pattern attempted at a fixed position.  The four
keyword alternatives begin with distinct characters, so at most one can apply
at a given position and the alternation order is immaterial. -/
def branchPatternAt (cs : List Char) : Option (List Char) :=
  (tryKeywordAt "feature".toList cs) <|> (tryKeywordAt "bugfix".toList cs) <|>
  (tryKeywordAt "hotfix".toList cs) <|> (tryKeywordAt "release".toList cs)

/-- JS `branchName.match(/(?:feature|bugfix|hotfix|release)\/([A-Za-z0-9]+-\d+)/)`:
the unanchored search tries each start position left to right and returns the
capture group of the first full match. -/
def branchTicket : List Char → Option (List Char)
  | [] => none
  | c :: rest => branchPatternAt (c :: rest) <|> branchTicket rest

/-- One `{path, ticket}` entry of the configured defaultTicketFor list. -/
structure TicketEntry where
  path : List Char
  ticket : List Char
deriving DecidableEq

/-- JS `String.prototype.includes`: literal substring containment. -/
def includesL (hay needle : List Char) : Bool :=
  startsWithL needle hay ||
  match hay with
  | [] => false
  | _ :: rest => includesL rest needle

/-- The defaultTicketFor lookup inside extractTicketFromBranch:
`(credentials.defaultTicketFor || []).find((item) => currentPath.includes(item.path))?.ticket || ''`.
JS `includes` is a literal substring test; a found entry with an empty ticket
and no found entry both yield the empty string. -/
def defaultTicketLookup (currentPath : List Char) (entries : List TicketEntry) : List Char :=
  match entries.find? (fun item => includesL currentPath item.path) with
  | some item => item.ticket
  | none => []

/-- Function extractTicketFromBranch from src/index.js, with the ambient
`process.cwd()` and `credentials.defaultTicketFor` made explicit arguments. -/
def extractTicketFromBranch (branchName currentPath : List Char)
    (defaultTicketFor : List TicketEntry) : List Char :=
  match branchTicket branchName with
  | some t => t
  | none => defaultTicketLookup currentPath defaultTicketFor

/-- The character class `\w`. -/
def isWordChar (c : Char) : Bool := isAsciiAlnum c || c = '_'

/-- The character class `\s` of JS regexes (ASCII whitespace plus the Unicode
space characters and line separators). -/
def isJsSpace (c : Char) : Bool :=
  c = ' ' || c = '\t' || c = '\n' || c = '\r' ||
  c = Char.ofNat 11 || c = Char.ofNat 12 ||
  c = Char.ofNat 0xa0 || c = Char.ofNat 0x1680 ||
  (Char.ofNat 0x2000 ≤ c && c ≤ Char.ofNat 0x200a) ||
  c = Char.ofNat 0x2028 || c = Char.ofNat 0x2029 || c = Char.ofNat 0x202f ||
  c = Char.ofNat 0x205f || c = Char.ofNat 0x3000 || c = Char.ofNat 0xfeff

/-- JS `String.prototype.trim`. -/
def jsTrim (cs : List Char) : List Char :=
  ((cs.dropWhile isJsSpace).reverse.dropWhile isJsSpace).reverse

/-- The head `^(\w+(?:\([^)]+\))?:)` of the conventional-commit regex applied
at the start of the string.  Returns the capture group (which includes the
colon) and the remainder.  Backtracking analysis: the greedy `\w+` run cannot
usefully shrink (the following required character is never a word character);
inside the optional group `[^)]+` must stop at the first closing parenthesis;
if the optional group is present but not followed by a colon, the alternative
without the group also fails because the character after the word run is an
opening parenthesis. -/
def convHead (cs : List Char) : Option ((List Char) × (List Char)) :=
  let w := cs.takeWhile isWordChar
  if w = [] then none
  else
    match cs.drop w.length with
    | '(' :: r2 =>
      let s := r2.takeWhile (fun c => c ≠ ')')
      if s = [] then none
      else
        match r2.drop s.length with
        | ')' :: ':' :: r4 => some (w ++ '(' :: (s ++ ')' :: [':']), r4)
        | _ => none
    | ':' :: r4 => some (w ++ [':'], r4)
    | _ => none

/-- The tail `\s*(.+)$` of the conventional-commit regex on the remainder
after the colon: the greedy whitespace run backtracks one character at a time
until the dot-plus capture is nonempty and free of line terminators (the
regex has no multiline flag, so the dollar anchors at the end of input). -/
def dotTailGo (r : List Char) : Nat → Option (List Char)
  | 0 => if r ≠ [] ∧ ¬ r.any isLineTerm then some r else none
  | k + 1 =>
    let cand := r.drop (k + 1)
    if cand ≠ [] ∧ ¬ cand.any isLineTerm then some cand
    else dotTailGo r k

/-- Capture of `\s*(.+)$` starting from the maximal whitespace run. -/
def tailCapture (r : List Char) : Option (List Char) :=
  dotTailGo r (r.takeWhile isJsSpace).length

/-- JS `message.match(/^(\w+(?:\([^)]+\))?:)\s*(.+)$/)`: the pair of capture
groups, or none when the whole pattern fails. -/
def conventionalMatch (message : List Char) : Option ((List Char) × (List Char)) :=
  match convHead message with
  | some (g1, r) =>
    match tailCapture r with
    | some g2 => some (g1, g2)
    | none => none
  | none => none

/-- Ticket placement applied to a parsed COMMIT_MESSAGE line in
generateCommit: with conventional commits and a nonempty ticket, insert the
ticket after the type/scope token when the pattern matches, else fall back to
plain prefixing; without conventional commits, prefix when the ticket is
nonempty, else leave the message unchanged. -/
def applyTicket (useConventionalCommits : Bool) (ticket message : List Char) : List Char :=
  if useConventionalCommits ∧ ticket ≠ [] then
    match conventionalMatch message with
    | some (g1, g2) => g1 ++ ' ' :: (ticket ++ ' ' :: g2)
    | none => ticket ++ ':' :: ' ' :: message
  else if ticket ≠ [] then ticket ++ ':' :: ' ' :: message
  else message

/-- The result object of generateCommit. -/
structure GenerationResult where
  commitMessage : List Char
  commitDescription : List Char
deriving DecidableEq

/-- The line label COMMIT_MESSAGE with its colon. -/
def commitMsgLabel : List Char := "COMMIT_MESSAGE:".toList

/-- The line label COMMIT_DESCRIPTION with its colon. -/
def commitDescLabel : List Char := "COMMIT_DESCRIPTION:".toList

/-- The `commit.forEach` loop of generateCommit over the trimmed lines:
each matching line overwrites the corresponding field (last seen wins);
`line.replace(label, '')` removes the leading label because the line is
known to start with it. -/
def parseLinesFold (useConv : Bool) (ticket : List Char) :
    GenerationResult → List (List Char) → GenerationResult
  | acc, [] => acc
  | acc, line :: rest =>
    if startsWithL commitMsgLabel line then
      let message := jsTrim (line.drop commitMsgLabel.length)
      parseLinesFold useConv ticket
        { acc with commitMessage := applyTicket useConv ticket message } rest
    else if startsWithL commitDescLabel line then
      parseLinesFold useConv ticket
        { acc with commitDescription := jsTrim (line.drop commitDescLabel.length) } rest
    else parseLinesFold useConv ticket acc rest

/-- The response-parsing tail of generateCommit:
`result.split('\n').map(line => line.trim())` folded by the forEach loop,
starting from two empty fields. -/
def parseCommitResult (useConv : Bool) (ticket rawResult : List Char) : GenerationResult :=
  parseLinesFold useConv ticket ⟨[], []⟩ ((splitNl rawResult).map jsTrim)

/-- State of commitCommand after the while loop: the four local variables
plus a count of how many times generateCommit was invoked. -/
structure LoopState where
  userSatisfied : Bool
  finalCommitMessage : List Char
  finalCommitDescription : List Char
  attemptCount : Nat
  generationCount : Nat
deriving DecidableEq

/-- How the while loop of commitCommand was left: earlyReturn models the
`if (!commitMessage) return` statement that exits the whole command from
inside the loop body; finished models reaching the loop exit normally
(acceptance, the -y flag, or the attempt ceiling). -/
inductive LoopExit where
  | earlyReturn (s : LoopState)
  | finished (s : LoopState)
deriving DecidableEq

/-- The `while (!userSatisfied && attemptCount < 10)` loop of commitCommand.
The generator oracle `gens k` is the GenerationResult produced by the k-th
call of generateCommit (the call sees the history accumulated so far, which
is determined by k, so indexing calls is faithful); `feedback k` is the
text the user enters at the prompt following the k-th generation.  The fuel
argument equals `10 - attemptCount`: the loop condition `attemptCount < 10`
is exactly `fuel > 0`, since each looping iteration increments attemptCount
by one.  Rejection increments attemptCount without touching the final
message/description variables; acceptance copies the shown pair into them
and exits. -/
def commitLoopGo (gens : Nat → GenerationResult) (feedback : Nat → List Char)
    (yFlag : Bool) : Nat → Nat → Nat → LoopExit
  | 0, attempts, genCount => .finished ⟨false, [], [], attempts, genCount⟩
  | fuel + 1, attempts, genCount =>
    let g := gens genCount
    if g.commitMessage = [] then
      .earlyReturn ⟨false, [], [], attempts, genCount + 1⟩
    else if yFlag then
      .finished ⟨true, g.commitMessage, g.commitDescription, attempts, genCount + 1⟩
    else if feedback genCount = [] then
      .finished ⟨true, g.commitMessage, g.commitDescription, attempts, genCount + 1⟩
    else
      commitLoopGo gens feedback yFlag fuel (attempts + 1) (genCount + 1)

/-- The loop entered from its initial state: `userSatisfied = false`,
empty final pair, `attemptCount = 0`, no generation yet. -/
def commitLoop (gens : Nat → GenerationResult) (feedback : Nat → List Char)
    (yFlag : Bool) : LoopExit :=
  commitLoopGo gens feedback yFlag 10 0 0

/-- Whether commitCommand calls `git.commit`, and with which argument. -/
inductive CommitAction where
  | noCommit
  | commit (args : List Char)
deriving DecidableEq

/-- What commitCommand does after the loop: the warning log and the chosen
commit action. -/
structure CommandOutcome where
  warned : Bool
  action : CommitAction
deriving DecidableEq

/-- The commit-argument string `${finalCommitMessage}\n\n${finalCommitDescription}`
plus the conditional ` --no-verify` suffix. -/
def commitArgsOf (s : LoopState) (verifyFlag : Bool) : List Char :=
  s.finalCommitMessage ++ '\n' :: '\n' :: s.finalCommitDescription ++
    (if verifyFlag then " --no-verify".toList else [])

/-- The tail of commitCommand after the while loop: an early return inside
the loop skips everything; otherwise the warning fires when the loop ended
unsatisfied, then `if (!finalCommitMessage) return`, then
`if (cmd.dryRun) { ...; return }`, and only past both guards is `git.commit`
invoked (exactly once). -/
def commitDecision (e : LoopExit) (dryRun verifyFlag : Bool) : CommandOutcome :=
  match e with
  | .earlyReturn _ => ⟨false, .noCommit⟩
  | .finished s =>
    let warned := !s.userSatisfied
    if s.finalCommitMessage = [] then ⟨warned, .noCommit⟩
    else if dryRun then ⟨warned, .noCommit⟩
    else ⟨warned, .commit (commitArgsOf s verifyFlag)⟩

/-- The context-size cap MAX_CONTEXT_SIZE of the context gatherer. -/
def MAX_CONTEXT_SIZE : Nat := 50000

/-- The trim marker appended by gatherSmartContext, as UTF-16 code units. -/
def trimMarker16 : List Nat := "\n... (context trimmed)".toList.map Char.toNat

/-- JS `contexts.join('\n')` over UTF-16 code-unit sequences. -/
def joinNl16 : List (List Nat) → List Nat
  | [] => []
  | [l] => l
  | l :: ls => l ++ 10 :: joinNl16 ls

/-- The final assembly-and-trim stage of gatherSmartContext, taking the
per-file context blocks accumulated in `contexts` (the earlier stages only
read files and push blocks):
`let contextString = contexts.join('\n');
 if (contextString.length > MAX_CONTEXT_SIZE) {
   contextString = contextString.substring(0, MAX_CONTEXT_SIZE) + '\n... (context trimmed)'; }`.
JS `length` and `substring` count UTF-16 code units, so the model works on
code-unit sequences. -/
def gatherSmartContextTrim (contexts : List (List Nat)) : List Nat :=
  let contextString := joinNl16 contexts
  if MAX_CONTEXT_SIZE < contextString.length then
    contextString.take MAX_CONTEXT_SIZE ++ trimMarker16
  else contextString

/-- High-surrogate code unit. -/
def isHighSurrogate (u : Nat) : Bool := 0xD800 ≤ u && u ≤ 0xDBFF

/-- Low-surrogate code unit. -/
def isLowSurrogate (u : Nat) : Bool := 0xDC00 ≤ u && u ≤ 0xDFFF

/-- A UTF-16 code-unit sequence is well formed when every high surrogate is
immediately followed by a low surrogate and no low surrogate appears on its
own: exactly the sequences that do not cut a code point in half. -/
def wellFormedUtf16 : List Nat → Bool
  | [] => true
  | [u] => !(isHighSurrogate u) && !(isLowSurrogate u)
  | u :: v :: rest =>
    if isHighSurrogate u then isLowSurrogate v && wellFormedUtf16 rest
    else !(isLowSurrogate u) && wellFormedUtf16 (v :: rest)

/-- Spec-side comparison definition (the source performs no such test in the
ticket lookup): matching of a regex pattern at a fixed position, for the
fragment of JS regex syntax in which the dot wildcard is the only
metacharacter.  Follows the spec wording that defaultTicketFor paths may be
matched "as regex" against the current path. -/
def specDotPatternAt : List Char → List Char → Bool
  | [], _ => true
  | _ :: _, [] => false
  | p :: ps, c :: cs => (p = '.' || p = c) && specDotPatternAt ps cs

/-- Spec-side comparison definition: unanchored regex test in the style of
`new RegExp(pattern).test(text)`, for dot-wildcard patterns. -/
def specRegexDotTest (pat : List Char) : List Char → Bool
  | [] => specDotPatternAt pat []
  | c :: cs => specDotPatternAt pat (c :: cs) || specRegexDotTest pat cs

/-- A `diff --git` header line for the post-change path P, as git prints it:
`diff --git a/P b/P`. -/
def headerLine (P : List Char) : List Char :=
  "diff --git a/".toList ++ (P ++ (' ' :: 'b' :: '/' :: P))

/-- A single assembled context block of 50,001 code units: 49,999 ASCII
letters followed by one astral character (U+1F600, encoded in UTF-16 as the
surrogate pair D83D DE00) straddling the 50,000-unit cut point. -/
def astralContextBlock : List Nat :=
  List.replicate 49999 97 ++ [0xD83D, 0xDE00]

/-! Helper lemmas about the string model. -/

lemma splitNl_cons (c : Char) (rest : List Char) :
    splitNl (c :: rest) =
      if c = '\n' then [] :: splitNl rest
      else
        match splitNl rest with
        | l :: ls => (c :: l) :: ls
        | [] => [[c]] := rfl

lemma splitNl_no_nl (l : List Char) (h : '\n' ∉ l) : splitNl l = [l] := by
  induction l with
  | nil => rfl
  | cons c rest ih =>
    simp only [List.mem_cons, not_or] at h
    rw [splitNl_cons, if_neg (fun hc => h.1 hc.symm), ih h.2]

lemma splitNl_append_nl (l t : List Char) (h : '\n' ∉ l) :
    splitNl (l ++ '\n' :: t) = l :: splitNl t := by
  induction l with
  | nil => simp [splitNl_cons]
  | cons c rest ih =>
    simp only [List.mem_cons, not_or] at h
    rw [List.cons_append, splitNl_cons, if_neg (fun hc => h.1 hc.symm), ih h.2]

lemma joinNl_cons₂ (l l2 : List Char) (ls : List (List Char)) :
    joinNl (l :: l2 :: ls) = l ++ '\n' :: joinNl (l2 :: ls) := rfl

lemma splitNl_joinNl (ls : List (List Char)) (h : ∀ l ∈ ls, '\n' ∉ l) (hne : ls ≠ []) :
    splitNl (joinNl ls) = ls := by
  induction ls with
  | nil => cases hne rfl
  | cons l ls ih =>
    cases ls with
    | nil => exact splitNl_no_nl l (h l (by simp))
    | cons l2 ls2 =>
      rw [joinNl_cons₂, splitNl_append_nl _ _ (h l (by simp)),
        ih (fun x hx => h x (by simp [hx])) (by simp)]

lemma startsWithL_append (pre l r : List Char) (h : startsWithL pre l = true) :
    startsWithL pre (l ++ r) = true := by
  induction pre generalizing l with
  | nil => simp [startsWithL]
  | cons p ps ih =>
    cases l with
    | nil => simp [startsWithL] at h
    | cons c cs =>
      simp only [startsWithL, Bool.and_eq_true] at h
      simp only [List.cons_append, startsWithL, Bool.and_eq_true]
      exact ⟨h.1, ih cs h.2⟩

/-! Helper lemmas about the diff parsers. -/

lemma extractFilesFromLines_cons_nonheader (line : List Char) (rest : List (List Char))
    (h : startsWithL diffGitHead line = false) :
    extractFilesFromLines (line :: rest) = extractFilesFromLines rest := by
  simp [extractFilesFromLines, h]

lemma extractFilesFromLines_cons_lock (line : List Char) (rest : List (List Char))
    (h1 : startsWithL diffGitHead line = true) (p : List Char)
    (h2 : matchBSlash line = some p) (h3 : isLockFile p = true) :
    extractFilesFromLines (line :: rest) = extractFilesFromLines rest := by
  simp [extractFilesFromLines, h1, h2, h3]

lemma extractFilesFromLines_cons_keep (line : List Char) (rest : List (List Char))
    (h1 : startsWithL diffGitHead line = true) (p : List Char)
    (h2 : matchBSlash line = some p) (h3 : isLockFile p = false) :
    extractFilesFromLines (line :: rest) = p :: extractFilesFromLines rest := by
  simp [extractFilesFromLines, h1, h2, h3]

lemma extractFilesFromLines_append_body (b rest : List (List Char))
    (h : ∀ l ∈ b, startsWithL diffGitHead l = false) :
    extractFilesFromLines (b ++ rest) = extractFilesFromLines rest := by
  induction b with
  | nil => rfl
  | cons l b ih =>
    rw [List.cons_append, extractFilesFromLines_cons_nonheader l _ (h l (by simp))]
    exact ih (fun x hx => h x (by simp [hx]))

lemma filterLockLines_cons_lock (skip : Bool) (line : List Char) (rest : List (List Char))
    (h1 : startsWithL diffGitHead line = true) (p : List Char)
    (h2 : matchBSlash line = some p) (h3 : isLockFile p = true) :
    filterLockLines skip (line :: rest) = filterLockLines true rest := by
  simp [filterLockLines, h1, h2, h3]

lemma filterLockLines_cons_keep (skip : Bool) (line : List Char) (rest : List (List Char))
    (h1 : startsWithL diffGitHead line = true) (p : List Char)
    (h2 : matchBSlash line = some p) (h3 : isLockFile p = false) :
    filterLockLines skip (line :: rest) = line :: filterLockLines false rest := by
  simp [filterLockLines, h1, h2, h3]

lemma filterLockLines_skip_body (b rest : List (List Char))
    (h : ∀ l ∈ b, startsWithL diffGitHead l = false) :
    filterLockLines true (b ++ rest) = filterLockLines true rest := by
  induction b with
  | nil => rfl
  | cons l b ih =>
    rw [List.cons_append]
    show filterLockLines true (l :: (b ++ rest)) = _
    simp only [filterLockLines, h l (by simp)]
    simpa using ih (fun x hx => h x (by simp [hx]))

lemma filterLockLines_keep_body (b rest : List (List Char))
    (h : ∀ l ∈ b, startsWithL diffGitHead l = false) :
    filterLockLines false (b ++ rest) = b ++ filterLockLines false rest := by
  induction b with
  | nil => rfl
  | cons l b ih =>
    rw [List.cons_append]
    show filterLockLines false (l :: (b ++ rest)) = _
    simp only [filterLockLines, h l (by simp)]
    simpa using ih (fun x hx => h x (by simp [hx]))

/-! Helper lemmas about the header-path regex. -/

lemma matchBSlash_cons (a : Char) (rest : List Char) :
    matchBSlash (a :: rest) =
      if a = 'b' ∧ rest.head? = some '/' ∧ rest.tail ≠ [] ∧
          rest.tail.any isLineTerm = false then some rest.tail
      else matchBSlash rest := rfl

lemma hasBS_cons (a : Char) (rest : List Char) :
    hasBS (a :: rest) = ((a = 'b' && rest.head? = some '/') || hasBS rest) := rfl

lemma matchBSlash_append_no_b (l r : List Char) (h : ∀ c ∈ l, c ≠ 'b') :
    matchBSlash (l ++ r) = matchBSlash r := by
  induction l with
  | nil => rfl
  | cons a l ih =>
    rw [List.cons_append, matchBSlash_cons, if_neg (fun hc => h a (by simp) hc.1)]
    exact ih (fun c hc => h c (by simp [hc]))

lemma hasBS_append_single (l : List Char) (d : Char) (h : hasBS l = false) (hd : d ≠ '/') :
    hasBS (l ++ [d]) = false := by
  induction l with
  | nil => simp [hasBS]
  | cons a l ih =>
    rw [hasBS_cons, Bool.or_eq_false_iff] at h
    rw [List.cons_append, hasBS_cons, Bool.or_eq_false_iff]
    refine ⟨?_, ih h.2⟩
    cases l with
    | nil => simp [hd]
    | cons e l2 => simpa using h.1

lemma matchBSlash_found (l : List Char) (c : Char) (t : List Char) (h : hasBS l = false)
    (hct : ∀ x ∈ c :: t, isLineTerm x = false) :
    matchBSlash (l ++ 'b' :: '/' :: c :: t) = some (c :: t) := by
  induction l with
  | nil =>
    rw [List.nil_append, matchBSlash_cons, if_pos ?_]
    · rfl
    · refine ⟨rfl, rfl, by simp, ?_⟩
      rw [List.any_eq_false]
      intro x hx
      simp [hct x hx]
  | cons a l ih =>
    rw [hasBS_cons, Bool.or_eq_false_iff] at h
    rw [List.cons_append, matchBSlash_cons, if_neg ?_]
    · exact ih h.2
    · rintro ⟨rfl, hh, -, -⟩
      cases l with
      | nil => simp at hh
      | cons e l2 =>
        simp only [List.cons_append, List.head?_cons, Option.some.injEq] at hh
        have := h.1
        simp [hh] at this

lemma matchBSlash_early (l t : List Char) (h : hasBS l = true) (ht : t ≠ [])
    (hl : ∀ c ∈ l, isLineTerm c = false) (htc : ∀ c ∈ t, isLineTerm c = false) :
    ∃ s, matchBSlash (l ++ t) = some (s ++ t) := by
  induction l with
  | nil => simp [hasBS] at h
  | cons a l ih =>
    rw [hasBS_cons, Bool.or_eq_true] at h
    rw [List.cons_append, matchBSlash_cons]
    by_cases hc : a = 'b' ∧ (l ++ t).head? = some '/' ∧ (l ++ t).tail ≠ [] ∧
        (l ++ t).tail.any isLineTerm = false
    · rw [if_pos hc]
      cases l with
      | nil =>
        rcases h with h | h
        · simp at h
        · simp [hasBS] at h
      | cons e l2 =>
        exact ⟨l2, by simp⟩
    · rw [if_neg hc]
      rcases h with h | h
      · exfalso
        apply hc
        simp only [Bool.and_eq_true, decide_eq_true_eq] at h
        obtain ⟨rfl, he⟩ := h
        cases l with
        | nil => simp at he
        | cons e l2 =>
          simp only [List.head?_cons, Option.some.injEq] at he
          subst he
          refine ⟨rfl, by simp, by simp [ht], ?_⟩
          simp only [List.cons_append, List.tail_cons, List.any_eq_false]
          intro x hx
          rcases List.mem_append.mp hx with hx2 | hx2
          · simp [hl x (List.mem_cons_of_mem _ (List.mem_cons_of_mem _ hx2))]
          · simp [htc x hx2]
      · exact ih h (fun c hcm => hl c (List.mem_cons_of_mem _ hcm))

/-! Helper lemmas about the response parser. -/

lemma parseLinesFold_msg_inv (useConv : Bool) (ticket : List Char)
    (acc : GenerationResult) (lines : List (List Char))
    (h : ∀ l ∈ lines, startsWithL commitMsgLabel l = false) :
    (parseLinesFold useConv ticket acc lines).commitMessage = acc.commitMessage := by
  induction lines generalizing acc with
  | nil => rfl
  | cons line rest ih =>
    rw [parseLinesFold, if_neg (by simp [h line (List.mem_cons_self _ _)])]
    split
    · exact ih _ (fun x hx => h x (List.mem_cons_of_mem _ hx))
    · exact ih _ (fun x hx => h x (List.mem_cons_of_mem _ hx))

lemma parseLinesFold_desc_inv (useConv : Bool) (ticket : List Char)
    (acc : GenerationResult) (lines : List (List Char))
    (h : ∀ l ∈ lines, startsWithL commitDescLabel l = false) :
    (parseLinesFold useConv ticket acc lines).commitDescription = acc.commitDescription := by
  induction lines generalizing acc with
  | nil => rfl
  | cons line rest ih =>
    rw [parseLinesFold]
    split
    · exact ih _ (fun x hx => h x (List.mem_cons_of_mem _ hx))
    · rw [if_neg (by simp [h line (List.mem_cons_self _ _)])]
      exact ih _ (fun x hx => h x (List.mem_cons_of_mem _ hx))

/-! Helper lemmas about the refinement loop and the trim stage. -/

lemma commitLoopGo_all_reject (gens : Nat → GenerationResult) (feedback : Nat → List Char)
    (fuel a g : Nat)
    (h : ∀ k, g ≤ k → k < g + fuel → (gens k).commitMessage ≠ [] ∧ feedback k ≠ []) :
    commitLoopGo gens feedback false fuel a g =
      .finished ⟨false, [], [], a + fuel, g + fuel⟩ := by
  induction fuel generalizing a g with
  | zero => rfl
  | succ n ih =>
    have hg := h g (le_refl g) (by omega)
    rw [commitLoopGo]
    simp only [hg.1, hg.2, if_false, Bool.false_eq_true]
    rw [ih (a + 1) (g + 1) (fun k hk1 hk2 => h k (by omega) (by omega))]
    have h1 : a + 1 + n = a + (n + 1) := by omega
    have h2 : g + 1 + n = g + (n + 1) := by omega
    rw [h1, h2]

lemma wellFormedUtf16_cons_safe (u : Nat) (l : List Nat)
    (h1 : isHighSurrogate u = false) (h2 : isLowSurrogate u = false) :
    wellFormedUtf16 (u :: l) = wellFormedUtf16 l := by
  cases l with
  | nil => simp [wellFormedUtf16, h1, h2]
  | cons v l2 => simp [wellFormedUtf16, h1, h2]

lemma wellFormedUtf16_replicate97 (n : Nat) (t : List Nat) :
    wellFormedUtf16 (List.replicate n 97 ++ t) = wellFormedUtf16 t := by
  induction n with
  | zero => rfl
  | succ m ih =>
    rw [List.replicate_succ, List.cons_append,
      wellFormedUtf16_cons_safe 97 _ (by decide) (by decide), ih]

lemma find?_first {α : Type} (p : α → Bool) (pre : List α) (e : α) (post : List α)
    (h1 : ∀ x ∈ pre, p x = false) (h2 : p e = true) :
    List.find? p (pre ++ e :: post) = some e := by
  induction pre with
  | nil => simp [List.find?_cons_of_pos _ h2]
  | cons a pre ih =>
    rw [List.cons_append, List.find?_cons_of_neg _ (by simp [h1 a (by simp)])]
    exact ih (fun x hx => h1 x (by simp [hx]))

/-! Claim theorems. -/

/-- C3: ticket resolution precedence.  For every branch name, current path
and configuration list: a branch-name pattern match wins over any configured
default (the returned ticket is the capture of the branch regex, whatever the
configuration); with no branch match, the first defaultTicketFor entry whose
path is contained in the current path supplies the ticket; with no branch
match and no matching entry the empty string is returned. -/
theorem c3_ticket_precedence (branch currentPath : List Char) (cfg : List TicketEntry) :
    (∀ t, branchTicket branch = some t →
      extractTicketFromBranch branch currentPath cfg = t) ∧
    (branchTicket branch = none →
      ∀ e, cfg.find? (fun item => includesL currentPath item.path) = some e →
        extractTicketFromBranch branch currentPath cfg = e.ticket) ∧
    (branchTicket branch = none →
      cfg.find? (fun item => includesL currentPath item.path) = none →
      extractTicketFromBranch branch currentPath cfg = []) := by
  refine ⟨?_, ?_, ?_⟩
  · intro t h
    simp [extractTicketFromBranch, h]
  · intro h e he
    simp [extractTicketFromBranch, h, defaultTicketLookup, he]
  · intro h he
    simp [extractTicketFromBranch, h, defaultTicketLookup, he]

/-- C3 witness: branch `feature/AB-123` beats a matching configured entry;
branch `main` falls back to the matching entry `PROJ-9`; with no matching
entry the result is empty. -/
theorem c3_witness :
    extractTicketFromBranch "feature/AB-123".toList "/home/u/proj".toList
      [⟨"proj".toList, "PROJ-9".toList⟩] = "AB-123".toList ∧
    extractTicketFromBranch "main".toList "/home/u/proj".toList
      [⟨"proj".toList, "PROJ-9".toList⟩] = "PROJ-9".toList ∧
    extractTicketFromBranch "main".toList "/home/u/other".toList
      [⟨"proj".toList, "PROJ-9".toList⟩] = [] :=
  ⟨(c3_ticket_precedence _ _ _).1 _ (by decide),
   (c3_ticket_precedence _ _ _).2.1 (by decide) ⟨"proj".toList, "PROJ-9".toList⟩ (by decide),
   (c3_ticket_precedence _ _ _).2.2 (by decide) (by decide)⟩

/-- C4 counterexample: the claim asserts the defaultTicketFor lookup also
tests each configured path as a regular expression against the current path.
The configured path `a.c` is a valid regex that matches the current path
`/abc/x` (the dot matches the letter b) and is not a literal substring of
it, the branch name `main` yields no ticket, yet extractTicketFromBranch
returns the empty string rather than the entry ticket `T-1`: the source
tests only substring containment. -/
theorem c4_counterexample :
    specRegexDotTest "a.c".toList "/abc/x".toList = true ∧
    includesL "/abc/x".toList "a.c".toList = false ∧
    branchTicket "main".toList = none ∧
    extractTicketFromBranch "main".toList "/abc/x".toList
      [⟨"a.c".toList, "T-1".toList⟩] = [] ∧
    "T-1".toList ≠ ([] : List Char) := by
  decide

/-- C4 amended: when the branch yields no ticket, the defaultTicketFor lookup
tests each entry only by literal substring containment of its configured path
in the current path (no regex interpretation: the regex-with-substring
fallback semantics belongs to the conventional-commits path check, not to
the ticket lookup); the first entry whose path is contained in the current
path supplies the ticket, and with no such entry the empty string is
returned. -/
theorem c4_amended (branch currentPath : List Char) (cfg : List TicketEntry)
    (h : branchTicket branch = none) :
    ((∀ e ∈ cfg, includesL currentPath e.path = false) →
      extractTicketFromBranch branch currentPath cfg = []) ∧
    (∀ pre e post, cfg = pre ++ e :: post →
      includesL currentPath e.path = true →
      (∀ e2 ∈ pre, includesL currentPath e2.path = false) →
      extractTicketFromBranch branch currentPath cfg = e.ticket) := by
  constructor
  · intro hall
    have hnone : cfg.find? (fun item => includesL currentPath item.path) = none := by
      rw [List.find?_eq_none]
      intro x hx
      simp [hall x hx]
    simp [extractTicketFromBranch, h, defaultTicketLookup, hnone]
  · rintro pre e post rfl he hpre
    have hfind := find?_first (fun item => includesL currentPath item.path) pre e post
      (fun x hx => by simp [hpre x hx]) (by simp [he])
    simp [extractTicketFromBranch, h, defaultTicketLookup, hfind]

/-- C4 amended witness: with branch `main` and current path `/repo/app`, the
first configured entry `xyz` does not match and the second entry `app`
matches by substring containment, so its ticket `B-2` is returned. -/
theorem c4_amended_witness :
    extractTicketFromBranch "main".toList "/repo/app".toList
      [⟨"xyz".toList, "A-1".toList⟩, ⟨"app".toList, "B-2".toList⟩] = "B-2".toList :=
  (c4_amended "main".toList "/repo/app".toList _ (by decide)).2
    [⟨"xyz".toList, "A-1".toList⟩] ⟨"app".toList, "B-2".toList⟩ [] rfl
    (by decide) (by decide)

/-- C5: ticket-prefix placement.  For every nonempty ticket: when the
conventional-commit policy is active and the message matches the
type/optional-scope pattern, the ticket is inserted between the type/scope
token (capture group one, colon included) and the description (capture group
two); when the pattern fails or the policy is inactive, the result is the
plain prefix `ticket: message`; with an empty ticket the message is
unchanged.  The two spec examples evaluate accordingly, and the conventional
regex splits `feat(auth): add login` into the expected groups. -/
theorem c5_ticket_placement (ticket message : List Char) (hT : ticket ≠ []) :
    (∀ g1 g2, conventionalMatch message = some (g1, g2) →
      applyTicket true ticket message = g1 ++ ' ' :: (ticket ++ ' ' :: g2)) ∧
    (conventionalMatch message = none →
      applyTicket true ticket message = ticket ++ ':' :: ' ' :: message) ∧
    applyTicket false ticket message = ticket ++ ':' :: ' ' :: message ∧
    (∀ (b : Bool) (m : List Char), applyTicket b [] m = m) ∧
    conventionalMatch "feat(auth): add login".toList =
      some ("feat(auth):".toList, "add login".toList) ∧
    applyTicket true "X-1".toList "feat(auth): add login".toList =
      "feat(auth): X-1 add login".toList ∧
    applyTicket false "X-1".toList "Add login".toList = "X-1: Add login".toList := by
  refine ⟨?_, ?_, ?_, ?_, by decide, by decide, by decide⟩
  · intro g1 g2 hm
    simp [applyTicket, hT, hm]
  · intro hm
    simp [applyTicket, hT, hm]
  · simp [applyTicket, hT]
  · intro b m
    simp [applyTicket]

/-- C5 witness: the placement theorem applied to ticket `X-1` and the spec
example message. -/
theorem c5_witness :
    applyTicket true "X-1".toList "feat(auth): add login".toList =
      "feat(auth): X-1 add login".toList ∧
    applyTicket false "X-1".toList "Add login".toList = "X-1: Add login".toList :=
  ⟨(c5_ticket_placement "X-1".toList "feat(auth): add login".toList (by decide)).2.2.2.2.2.1,
   (c5_ticket_placement "X-1".toList "Add login".toList (by decide)).2.2.2.2.2.2⟩

/-- C2 counterexample: a provider response consisting of the single line
`COMMIT_DESCRIPTION: fix stuff` contains no line starting with
COMMIT_MESSAGE:, yet the parser returns an empty commitMessage together with
a NON-empty commitDescription, so the returned pair is neither both-empty
nor both-nonempty, contradicting the claimed invariant and the claim that a
missing message line leaves both fields empty. -/
theorem c2_counterexample :
    ((splitNl "COMMIT_DESCRIPTION: fix stuff".toList).map jsTrim).all
      (fun l => !(startsWithL commitMsgLabel l)) = true ∧
    (parseCommitResult false [] "COMMIT_DESCRIPTION: fix stuff".toList).commitMessage = [] ∧
    (parseCommitResult false [] "COMMIT_DESCRIPTION: fix stuff".toList).commitDescription =
      "fix stuff".toList ∧
    "fix stuff".toList ≠ ([] : List Char) := by
  decide

/-- C2 amended: the parser sets the two fields independently.  When no
trimmed line starts with COMMIT_MESSAGE:, the returned commitMessage is
empty, but commitDescription is still filled from a COMMIT_DESCRIPTION: line
when one is present; both fields are guaranteed empty only when neither
label occurs. -/
theorem c2_amended (useConv : Bool) (ticket raw : List Char)
    (h : ∀ l ∈ (splitNl raw).map jsTrim, startsWithL commitMsgLabel l = false) :
    (parseCommitResult useConv ticket raw).commitMessage = [] ∧
    ((∀ l ∈ (splitNl raw).map jsTrim, startsWithL commitDescLabel l = false) →
      (parseCommitResult useConv ticket raw).commitDescription = []) := by
  constructor
  · exact parseLinesFold_msg_inv useConv ticket ⟨[], []⟩ _ h
  · intro hd
    exact parseLinesFold_desc_inv useConv ticket ⟨[], []⟩ _ hd

/-- C2 amended witness: on the counterexample response the amended statement
yields an empty commitMessage. -/
theorem c2_amended_witness :
    (parseCommitResult false [] "COMMIT_DESCRIPTION: fix stuff".toList).commitMessage = [] :=
  (c2_amended false [] "COMMIT_DESCRIPTION: fix stuff".toList (by decide)).1

/-- C1: behaviour of the loop at the attempt ceiling.  When the user rejects
with non-empty feedback ten consecutive times (all generated messages being
non-empty), the loop terminates after exactly ten generations (no eleventh is
requested) with userSatisfied still false — so the warning is logged — BUT
the final message variable still holds the initial empty string, not the
tenth generated pair, and consequently commitCommand returns before invoking
git.commit regardless of flags.  This contradicts the claimed handing-onward
of the last generated pair: the acceptance branch alone copies a generated
pair into the final variables. -/
theorem c1_ceiling_behavior (gens : Nat → GenerationResult) (feedback : Nat → List Char)
    (hmsg : ∀ k < 10, (gens k).commitMessage ≠ [])
    (hfb : ∀ k < 10, feedback k ≠ []) :
    commitLoop gens feedback false = .finished ⟨false, [], [], 10, 10⟩ ∧
    (∀ s, commitLoop gens feedback false = .finished s →
      s.finalCommitMessage ≠ (gens 9).commitMessage) ∧
    (∀ dryRun verifyFlag : Bool,
      commitDecision (commitLoop gens feedback false) dryRun verifyFlag =
        ⟨true, .noCommit⟩) := by
  have hloop : commitLoop gens feedback false = .finished ⟨false, [], [], 10, 10⟩ := by
    show commitLoopGo gens feedback false 10 0 0 = _
    simpa using commitLoopGo_all_reject gens feedback 10 0 0
      (fun k hk1 hk2 => ⟨hmsg k (by omega), hfb k (by omega)⟩)
  refine ⟨hloop, ?_, ?_⟩
  · intro s heq
    rw [hloop] at heq
    injection heq with h2
    rw [← h2]
    intro hcontra
    exact hmsg 9 (by omega) hcontra.symm
  · intro dryRun verifyFlag
    rw [hloop]
    simp [commitDecision]

/-- C1 witness: a concrete run with constant nonempty generations and the
constant rejection feedback `no` reaches the ceiling with an empty final
message and performs no commit. -/
theorem c1_witness :
    commitLoop (fun _ => ⟨"m".toList, "d".toList⟩) (fun _ => "no".toList) false =
      .finished ⟨false, [], [], 10, 10⟩ ∧
    (∀ s, commitLoop (fun _ => ⟨"m".toList, "d".toList⟩) (fun _ => "no".toList) false =
      .finished s →
      s.finalCommitMessage ≠
        ((fun _ => (⟨"m".toList, "d".toList⟩ : GenerationResult)) 9).commitMessage) ∧
    (∀ dryRun verifyFlag : Bool,
      commitDecision
        (commitLoop (fun _ => ⟨"m".toList, "d".toList⟩) (fun _ => "no".toList) false)
        dryRun verifyFlag = ⟨true, .noCommit⟩) :=
  c1_ceiling_behavior (fun _ => ⟨"m".toList, "d".toList⟩) (fun _ => "no".toList)
    (fun k hk => by simp) (fun k hk => by simp)

/-- C9: the dry-run flag stops the command before the commit call for every
possible loop exit, while in a non-dry-run invocation whose loop finished
with a non-empty final message the commit call is made (exactly once, with
the assembled argument string — the model performs at most this one commit
action per invocation). -/
theorem c9_dry_run_gate (e : LoopExit) (verifyFlag : Bool) :
    (commitDecision e true verifyFlag).action = CommitAction.noCommit ∧
    (∀ s, e = LoopExit.finished s → s.finalCommitMessage ≠ [] →
      (commitDecision e false verifyFlag).action =
        CommitAction.commit (commitArgsOf s verifyFlag)) := by
  constructor
  · cases e with
    | earlyReturn s => rfl
    | finished s =>
      by_cases hm : s.finalCommitMessage = []
      · simp [commitDecision, hm]
      · simp [commitDecision, hm]
  · rintro s rfl hne
    simp [commitDecision, hne]

/-- C9 witness: an accepted loop state with message `m` is not committed
under dry-run and is committed (once) without dry-run. -/
theorem c9_witness :
    (commitDecision (.finished ⟨true, "m".toList, "d".toList, 0, 1⟩) true false).action =
      CommitAction.noCommit ∧
    (commitDecision (.finished ⟨true, "m".toList, "d".toList, 0, 1⟩) false false).action =
      CommitAction.commit (commitArgsOf ⟨true, "m".toList, "d".toList, 0, 1⟩ false) :=
  ⟨(c9_dry_run_gate (.finished ⟨true, "m".toList, "d".toList, 0, 1⟩) false).1,
   (c9_dry_run_gate (.finished ⟨true, "m".toList, "d".toList, 0, 1⟩) false).2 _ rfl (by decide)⟩

/-- C7: context size bound.  When the joined per-file context blocks exceed
the 50,000-unit budget, the output of the trim stage has length at most
50,000 plus the length of the appended trim marker, ends with the full
marker, and in particular ends with the text (context trimmed); at or under
the budget the joined string is returned unmodified. -/
theorem c7_context_size_bound (contexts : List (List Nat)) :
    (MAX_CONTEXT_SIZE < (joinNl16 contexts).length →
      (gatherSmartContextTrim contexts).length ≤ MAX_CONTEXT_SIZE + trimMarker16.length ∧
      trimMarker16 <:+ gatherSmartContextTrim contexts ∧
      ("(context trimmed)".toList.map Char.toNat) <:+ gatherSmartContextTrim contexts) ∧
    ((joinNl16 contexts).length ≤ MAX_CONTEXT_SIZE →
      gatherSmartContextTrim contexts = joinNl16 contexts) := by
  constructor
  · intro h
    have hout : gatherSmartContextTrim contexts =
        (joinNl16 contexts).take MAX_CONTEXT_SIZE ++ trimMarker16 := by
      simp [gatherSmartContextTrim, h]
    refine ⟨?_, ?_, ?_⟩
    · rw [hout, List.length_append, List.length_take]
      omega
    · rw [hout]
      exact List.suffix_append _ _
    · rw [hout]
      exact (show ("(context trimmed)".toList.map Char.toNat) <:+ trimMarker16 by decide).trans
        (List.suffix_append _ _)
  · intro h
    simp [gatherSmartContextTrim, Nat.not_lt.mpr h]

/-- C7 witness: a single context block of 50,001 units is over budget and
gets trimmed with the marker appended. -/
theorem c7_witness :
    MAX_CONTEXT_SIZE < (joinNl16 [List.replicate 50001 97]).length ∧
    (gatherSmartContextTrim [List.replicate 50001 97]).length ≤
      MAX_CONTEXT_SIZE + trimMarker16.length ∧
    trimMarker16 <:+ gatherSmartContextTrim [List.replicate 50001 97] := by
  have h : MAX_CONTEXT_SIZE < (joinNl16 [List.replicate 50001 97]).length := by
    rw [show joinNl16 [List.replicate 50001 97] = List.replicate 50001 97 from rfl,
      List.length_replicate]
    decide
  exact ⟨h, ((c7_context_size_bound _).1 h).1, ((c7_context_size_bound _).1 h).2.1⟩

/-- C8 counterexample: the claim asserts the cut point never splits a code
point.  A well-formed assembled context of 50,001 code units whose final
character is the astral U+1F600 (surrogate pair D83D DE00 at positions
49,999 and 50,000) is cut by substring(0, 50000) between the two surrogate
halves, so the trimmed output is NOT a well-formed UTF-16 sequence: it
contains a lone high surrogate right before the appended marker. -/
theorem c8_counterexample :
    wellFormedUtf16 (joinNl16 [astralContextBlock]) = true ∧
    MAX_CONTEXT_SIZE < (joinNl16 [astralContextBlock]).length ∧
    wellFormedUtf16 (gatherSmartContextTrim [astralContextBlock]) = false := by
  have hjoin : joinNl16 [astralContextBlock] = astralContextBlock := rfl
  have hlen : astralContextBlock.length = 50001 := by
    rw [show astralContextBlock = List.replicate 49999 97 ++ [0xD83D, 0xDE00] from rfl,
      List.length_append, List.length_replicate]
    decide
  have hwf : wellFormedUtf16 astralContextBlock = true := by
    rw [show astralContextBlock = List.replicate 49999 97 ++ [0xD83D, 0xDE00] from rfl,
      wellFormedUtf16_replicate97]
    decide
  have hcond : MAX_CONTEXT_SIZE < astralContextBlock.length := by
    rw [hlen]
    decide
  have htrim : gatherSmartContextTrim [astralContextBlock] =
      astralContextBlock.take MAX_CONTEXT_SIZE ++ trimMarker16 := by
    simp [gatherSmartContextTrim, hjoin, hcond]
  have htake : astralContextBlock.take MAX_CONTEXT_SIZE =
      List.replicate 49999 97 ++ [0xD83D] := by
    rw [show astralContextBlock = List.replicate 49999 97 ++ [0xD83D, 0xDE00] from rfl,
      List.take_append_eq_append_take,
      List.take_of_length_le (by rw [List.length_replicate]; decide), List.length_replicate]
    rw [show MAX_CONTEXT_SIZE - 49999 = 1 from by decide]
    rfl
  refine ⟨by rw [hjoin]; exact hwf, by rw [hjoin]; exact hcond, ?_⟩
  rw [htrim, htake, List.append_assoc, wellFormedUtf16_replicate97]
  decide

/-- C8 amended: for every assembled context over the budget the cut point is
exactly 50,000 UTF-16 code units — a cut that can fall between the halves of
a surrogate pair, leaving a lone high surrogate at the end of the truncated
prefix — and the explicit "(context trimmed)" marker is always appended. -/
theorem c8_amended (contexts : List (List Nat))
    (h : MAX_CONTEXT_SIZE < (joinNl16 contexts).length) :
    gatherSmartContextTrim contexts =
      (joinNl16 contexts).take MAX_CONTEXT_SIZE ++ trimMarker16 ∧
    trimMarker16 <:+ gatherSmartContextTrim contexts ∧
    (gatherSmartContextTrim contexts).take MAX_CONTEXT_SIZE =
      (joinNl16 contexts).take MAX_CONTEXT_SIZE := by
  have hout : gatherSmartContextTrim contexts =
      (joinNl16 contexts).take MAX_CONTEXT_SIZE ++ trimMarker16 := by
    simp [gatherSmartContextTrim, h]
  refine ⟨hout, by rw [hout]; exact List.suffix_append _ _, ?_⟩
  rw [hout, List.take_append_eq_append_take, List.length_take, List.take_take]
  have hmin : min MAX_CONTEXT_SIZE (joinNl16 contexts).length = MAX_CONTEXT_SIZE := by
    omega
  simp [hmin]

/-- C8 amended witness: the amended statement applied to a single over-budget
block. -/
theorem c8_amended_witness :
    gatherSmartContextTrim [List.replicate 50001 97] =
      (joinNl16 [List.replicate 50001 97]).take MAX_CONTEXT_SIZE ++ trimMarker16 ∧
    trimMarker16 <:+ gatherSmartContextTrim [List.replicate 50001 97] :=
  ⟨(c8_amended [List.replicate 50001 97]
      (by rw [show joinNl16 [List.replicate 50001 97] = List.replicate 50001 97 from rfl,
        List.length_replicate]; decide)).1,
   (c8_amended [List.replicate 50001 97]
      (by rw [show joinNl16 [List.replicate 50001 97] = List.replicate 50001 97 from rfl,
        List.length_replicate]; decide)).2.1⟩

/-- C10: edge case of diff-header parsing.  For every nonempty post-change
path P free of line terminators (the regex dot cannot match those), applied
to the header line `diff --git a/P b/P`: when the sequence b-slash does not
occur inside P, the constant part of the header contains no such occurrence
before the post-change marker either, so the extracted path is exactly P
(and, if P is not a lock file, extractChangedFiles on the single-line diff
returns [P]); when b-slash does occur inside P (for example a directory
component ending in the letter b, as in lib/), the match starts at that
earlier occurrence and the extracted value is strictly longer than P, hence
not the post-change path. -/
theorem c10_header_extraction (P : List Char) (hne : P ≠ [])
    (hterm : ∀ c ∈ P, isLineTerm c = false) :
    (hasBS P = false →
      matchBSlash (headerLine P) = some P ∧
      (isLockFile P = false → extractChangedFiles (headerLine P) = [P])) ∧
    (hasBS P = true →
      ∃ q, matchBSlash (headerLine P) = some q ∧ P.length < q.length) := by
  have hnl : '\n' ∉ P := by
    intro hm
    simpa [isLineTerm] using hterm '\n' hm
  have hred : matchBSlash (headerLine P) = matchBSlash (P ++ ' ' :: 'b' :: '/' :: P) := by
    rw [headerLine, matchBSlash_append_no_b _ _ (by decide)]
  constructor
  · intro hbs
    have hmain : matchBSlash (headerLine P) = some P := by
      rw [hred]
      obtain ⟨p0, P2, rfl⟩ : ∃ p0 P2, P = p0 :: P2 := by
        cases P with
        | nil => exact absurd rfl hne
        | cons a b => exact ⟨a, b, rfl⟩
      have hsplit : (p0 :: P2) ++ ' ' :: 'b' :: '/' :: (p0 :: P2) =
          ((p0 :: P2) ++ [' ']) ++ 'b' :: '/' :: p0 :: P2 := by simp
      rw [hsplit,
        matchBSlash_found _ _ _ (hasBS_append_single _ _ hbs (by decide)) hterm]
    refine ⟨hmain, ?_⟩
    intro hlock
    have hnonl : '\n' ∉ headerLine P := by
      intro hmem
      rw [headerLine] at hmem
      rcases List.mem_append.mp hmem with h1 | h2
      · exact absurd h1 (by decide)
      · rcases List.mem_append.mp h2 with h3 | h4
        · exact hnl h3
        · simp only [List.mem_cons] at h4
          rcases h4 with h | h | h | h
          · exact absurd h (by decide)
          · exact absurd h (by decide)
          · exact absurd h (by decide)
          · exact hnl h
    have hsw : startsWithL diffGitHead (headerLine P) = true := by
      rw [headerLine]
      exact startsWithL_append _ _ _ (by decide)
    rw [extractChangedFiles, splitNl_no_nl _ hnonl,
      extractFilesFromLines_cons_keep _ _ hsw P hmain hlock]
    rfl
  · intro hbs
    have htc : ∀ c ∈ ' ' :: 'b' :: '/' :: P, isLineTerm c = false := by
      intro c hc
      simp only [List.mem_cons] at hc
      rcases hc with rfl | rfl | rfl | hc
      · decide
      · decide
      · decide
      · exact hterm c hc
    obtain ⟨s, hs⟩ :=
      matchBSlash_early P (' ' :: 'b' :: '/' :: P) hbs (by simp) hterm htc
    refine ⟨s ++ ' ' :: 'b' :: '/' :: P, by rw [hred, hs], ?_⟩
    simp [List.length_append]
    omega

/-- C10 witness: the theorem instantiated at both kinds of path — the clean
path `src/app.js` (no b-slash before the marker, so exactly the post-change
path is extracted) and the path `lib/x.js` whose directory component puts a
b-slash before the marker, so the extracted value is longer than the
post-change path. -/
theorem c10_witness :
    (matchBSlash (headerLine "src/app.js".toList) = some "src/app.js".toList ∧
      extractChangedFiles (headerLine "src/app.js".toList) = ["src/app.js".toList]) ∧
    (∃ q, matchBSlash (headerLine "lib/x.js".toList) = some q ∧
      "lib/x.js".toList.length < q.length) :=
  ⟨⟨((c10_header_extraction "src/app.js".toList (by decide) (by decide)).1 (by decide)).1,
    ((c10_header_extraction "src/app.js".toList (by decide) (by decide)).1
      (by decide)).2 (by decide)⟩,
   (c10_header_extraction "lib/x.js".toList (by decide) (by decide)).2 (by decide)⟩

/-- C6: lock-file exclusion.  For every diff made of three per-file sections
— package-lock.json, yarn.lock and src/app.js, each a header line followed
by arbitrary body lines that are not themselves section headers —
extractChangedFiles returns only src/app.js, and filterLockFilesFromDiff
returns exactly the src/app.js section (header and body lines in their
original order), i.e. no line of the two lock-file sections survives. -/
theorem c6_lock_exclusion (b1 b2 b3 : List (List Char))
    (hb1 : ∀ l ∈ b1, startsWithL diffGitHead l = false ∧ '\n' ∉ l)
    (hb2 : ∀ l ∈ b2, startsWithL diffGitHead l = false ∧ '\n' ∉ l)
    (hb3 : ∀ l ∈ b3, startsWithL diffGitHead l = false ∧ '\n' ∉ l) :
    extractChangedFiles (joinNl
      ("diff --git a/package-lock.json b/package-lock.json".toList ::
        (b1 ++ "diff --git a/yarn.lock b/yarn.lock".toList ::
          (b2 ++ "diff --git a/src/app.js b/src/app.js".toList :: b3)))) =
      ["src/app.js".toList] ∧
    filterLockFilesFromDiff (joinNl
      ("diff --git a/package-lock.json b/package-lock.json".toList ::
        (b1 ++ "diff --git a/yarn.lock b/yarn.lock".toList ::
          (b2 ++ "diff --git a/src/app.js b/src/app.js".toList :: b3)))) =
      joinNl ("diff --git a/src/app.js b/src/app.js".toList :: b3) := by
  have hs : splitNl (joinNl
      ("diff --git a/package-lock.json b/package-lock.json".toList ::
        (b1 ++ "diff --git a/yarn.lock b/yarn.lock".toList ::
          (b2 ++ "diff --git a/src/app.js b/src/app.js".toList :: b3)))) =
      "diff --git a/package-lock.json b/package-lock.json".toList ::
        (b1 ++ "diff --git a/yarn.lock b/yarn.lock".toList ::
          (b2 ++ "diff --git a/src/app.js b/src/app.js".toList :: b3)) := by
    refine splitNl_joinNl _ ?_ (by simp)
    intro l hl
    simp only [List.mem_cons, List.mem_append] at hl
    rcases hl with rfl | hl | rfl | hl | rfl | hl
    · decide
    · exact (hb1 l hl).2
    · decide
    · exact (hb2 l hl).2
    · decide
    · exact (hb3 l hl).2
  have hb3f : extractFilesFromLines b3 = [] := by
    have := extractFilesFromLines_append_body b3 [] (fun l hl => (hb3 l hl).1)
    simpa using this
  have hb3k : filterLockLines false b3 = b3 := by
    have := filterLockLines_keep_body b3 [] (fun l hl => (hb3 l hl).1)
    simpa [filterLockLines] using this
  constructor
  · rw [extractChangedFiles, hs,
      extractFilesFromLines_cons_lock _ _ (by decide)
        "package-lock.json".toList (by decide) (by decide),
      extractFilesFromLines_append_body b1 _ (fun l hl => (hb1 l hl).1),
      extractFilesFromLines_cons_lock _ _ (by decide)
        "yarn.lock".toList (by decide) (by decide),
      extractFilesFromLines_append_body b2 _ (fun l hl => (hb2 l hl).1),
      extractFilesFromLines_cons_keep _ _ (by decide)
        "src/app.js".toList (by decide) (by decide),
      hb3f]
  · rw [filterLockFilesFromDiff, hs,
      filterLockLines_cons_lock _ _ _ (by decide)
        "package-lock.json".toList (by decide) (by decide),
      filterLockLines_skip_body b1 _ (fun l hl => (hb1 l hl).1),
      filterLockLines_cons_lock _ _ _ (by decide)
        "yarn.lock".toList (by decide) (by decide),
      filterLockLines_skip_body b2 _ (fun l hl => (hb2 l hl).1),
      filterLockLines_cons_keep _ _ _ (by decide)
        "src/app.js".toList (by decide) (by decide),
      hb3k]

/-- C6 witness: the exclusion theorem applied to one-line section bodies. -/
theorem c6_witness :
    extractChangedFiles (joinNl
      ("diff --git a/package-lock.json b/package-lock.json".toList ::
        (["- x".toList] ++ "diff --git a/yarn.lock b/yarn.lock".toList ::
          (["+ y".toList] ++ "diff --git a/src/app.js b/src/app.js".toList ::
            ["+ z".toList])))) = ["src/app.js".toList] ∧
    filterLockFilesFromDiff (joinNl
      ("diff --git a/package-lock.json b/package-lock.json".toList ::
        (["- x".toList] ++ "diff --git a/yarn.lock b/yarn.lock".toList ::
          (["+ y".toList] ++ "diff --git a/src/app.js b/src/app.js".toList ::
            ["+ z".toList])))) =
      joinNl ("diff --git a/src/app.js b/src/app.js".toList :: ["+ z".toList]) :=
  c6_lock_exclusion ["- x".toList] ["+ y".toList] ["+ z".toList]
    (by decide) (by decide) (by decide)

end Gitp
